import Mathlib

/-!
Verification of the bulk-rename utility `rename.py` (PowerScope repository).

The script walks a directory tree, and for every file whose name ends in
`.xaml` or `.cs` it reads the contents as UTF-8, replaces every
non-overlapping occurrence of a search string by a replacement string
(Python `str.replace` semantics), writes the result back, and prints one
progress line per modified file.  Files that fail to decode are skipped
with a diagnostic; any other I/O error propagates.

The embedding below models strings as `List Char` (Unicode code points,
as in Python), file contents as either decodable text, undecodable bytes,
or a content whose access raises an OS error, and the walk as a recursive
flattening of a directory tree followed by a sequential pass over the
file list.
-/

set_option autoImplicit false

namespace Rename

/-- Boolean list-prefix test on code points; mirrors the per-position
comparison that Python performs when looking for a match of the search
string at a given offset. -/
def startsWithList : List Char → List Char → Bool
  | [], _ => true
  | _ :: _, [] => false
  | a :: as, b :: bs => a == b && startsWithList as bs

/-- Python substring containment, the test `old in content` in
`replace_in_file`: the needle occurs at some offset of the haystack
(the empty needle occurs in every string). -/
def occursIn (needle : List Char) : List Char → Bool
  | [] => needle.isEmpty
  | c :: rest => startsWithList needle (c :: rest) || occursIn needle rest

/-- Fuel-indexed scanner implementing Python `str.replace` for a
non-empty search string `o :: os`: scan left to right, on a match copy
`new` to the output and resume immediately after the matched region, on
a mismatch copy one character and advance by one.  The fuel is only a
structural-termination device; `replaceCore` supplies enough of it. -/
def replaceFuel (o : Char) (os new : List Char) : Nat → List Char → List Char
  | 0, s => s
  | _ + 1, [] => []
  | fuel + 1, c :: rest =>
    if startsWithList (o :: os) (c :: rest) then
      new ++ replaceFuel o os new fuel (rest.drop os.length)
    else
      c :: replaceFuel o os new fuel rest

/-- Left-to-right non-overlapping replacement of the non-empty search
string `o :: os` by `new` throughout `s`. -/
def replaceCore (o : Char) (os new s : List Char) : List Char :=
  replaceFuel o os new s.length s

/-- Python `content.replace(old, new)`, the call on line 11 of
`rename.py`.  An empty search string inserts the replacement before
every character and once at the end, as CPython does. -/
def pyReplace (s old new : List Char) : List Char :=
  match old with
  | [] => new ++ s.flatMap (fun c => c :: new)
  | o :: os => replaceCore o os new s

/-- Contents of a file on disk, as far as the script can observe them:
UTF-8 decodable text, bytes that raise `UnicodeDecodeError` on decoding,
or a file whose very access raises some other `OSError`. -/
inductive FileContent where
  | text (s : List Char)
  | invalidUtf8 (bytes : List Nat)
  | ioError
  deriving DecidableEq

/-- A file reachable from the root: the directory path below the root,
the filename, and the contents. -/
structure FSFile where
  path : List String
  name : String
  content : FileContent
  deriving DecidableEq

/-- The `os.path.join(dirpath, filename)` string the script prints. -/
def fullPath (f : FSFile) : String :=
  String.intercalate "/" (f.path ++ [f.name])

/-- Python `str.endswith`: case-sensitive suffix test on code points. -/
def endsWithList (post s : List Char) : Bool :=
  startsWithList post.reverse s.reverse

/-- The extension filter on line 19 of `rename.py`:
`filename.endswith('.xaml') or filename.endswith('.cs')`. -/
def isCandidate (name : String) : Bool :=
  endsWithList ".xaml".toList name.toList || endsWithList ".cs".toList name.toList

/-- One call of `replace_in_file(filepath, old, new)`: returns the new
contents together with the printed lines, or `Except.error` when an
uncaught exception (any non-`UnicodeDecodeError` I/O failure) escapes. -/
def replace_in_file (filepath : String) (old new : List Char) :
    FileContent → Except Unit (FileContent × List String)
  | FileContent.ioError => Except.error ()
  | FileContent.invalidUtf8 bs =>
      Except.ok (FileContent.invalidUtf8 bs, ["Skipped (decode error): " ++ filepath])
  | FileContent.text s =>
      if occursIn old s then
        Except.ok (FileContent.text (pyReplace s old new), ["Replaced in: " ++ filepath])
      else
        Except.ok (FileContent.text s, [])

/-- Outcome of a run over a list of files: the final disk state and the
printed lines, either after normal completion or after an uncaught
exception aborted the walk. -/
inductive RunResult where
  | ok (fs : List FSFile) (out : List String)
  | fatal (fs : List FSFile) (out : List String)
  deriving DecidableEq

/-- The loop body of `process_directory` over an already-enumerated file
list: candidate files go through `replace_in_file` in order; an escaped
exception stops the walk at once, leaving the failing file and all later
files untouched and keeping the modifications already made. -/
def runDir (old new : List Char) : List FSFile → RunResult
  | [] => RunResult.ok [] []
  | f :: rest =>
    if isCandidate f.name then
      match replace_in_file (fullPath f) old new f.content with
      | Except.error _ => RunResult.fatal (f :: rest) []
      | Except.ok (c, out) =>
        match runDir old new rest with
        | RunResult.ok fs out2 => RunResult.ok ({ f with content := c } :: fs) (out ++ out2)
        | RunResult.fatal fs out2 => RunResult.fatal ({ f with content := c } :: fs) (out ++ out2)
    else
      match runDir old new rest with
      | RunResult.ok fs out2 => RunResult.ok (f :: fs) out2
      | RunResult.fatal fs out2 => RunResult.fatal (f :: fs) out2

/-- The per-file disk effect of a completed run: candidates with
decodable text containing the search string are rewritten, everything
else is left as it is. -/
def fileStep (old new : List Char) (f : FSFile) : FSFile :=
  if isCandidate f.name then
    match f.content with
    | FileContent.text s =>
        if occursIn old s then { f with content := FileContent.text (pyReplace s old new) }
        else f
    | _ => f
  else f

/-- The per-file printed lines of a completed run. -/
def fileLog (old _new : List Char) (f : FSFile) : List String :=
  if isCandidate f.name then
    match f.content with
    | FileContent.text s =>
        if occursIn old s then ["Replaced in: " ++ fullPath f] else []
    | FileContent.invalidUtf8 _ => ["Skipped (decode error): " ++ fullPath f]
    | FileContent.ioError => []
  else []

mutual

/-- A directory: its plain files and its subdirectories. -/
inductive DirTree where
  | node (files : List (String × FileContent)) (subdirs : Forest)

/-- A list of named subdirectories (a mutual inductive so that the walk
is structurally recursive). -/
inductive Forest where
  | nil
  | cons (dname : String) (tree : DirTree) (rest : Forest)

end

mutual

/-- The enumeration performed by `os.walk`: every file of every
directory reachable from the root, tagged with its directory path. -/
def walkTree (p : List String) : DirTree → List FSFile
  | DirTree.node files subdirs =>
      files.map (fun fc => ⟨p, fc.1, fc.2⟩) ++ walkForest p subdirs

/-- Enumeration of a list of subdirectories. -/
def walkForest (p : List String) : Forest → List FSFile
  | Forest.nil => []
  | Forest.cons d t rest => walkTree (p ++ [d]) t ++ walkForest p rest

end

/-- Membership of a named subdirectory in a forest. -/
def forestHas (d : String) (t : DirTree) : Forest → Prop
  | Forest.nil => False
  | Forest.cons d2 t2 rest => (d = d2 ∧ t = t2) ∨ forestHas d t rest

/-- `process_directory(root_dir, old, new)`: enumerate every file under
the root and run the replacement pass over them. -/
def process_directory (root_dir : List String) (old new : List Char) (t : DirTree) : RunResult :=
  runDir old new (walkTree root_dir t)

/-- The hardcoded search string of the `__main__` invocation. -/
def mainOld : List Char := "SerialPlotDN_WPF".toList

/-- The hardcoded replacement string of the `__main__` invocation. -/
def mainNew : List Char := "PowerScope".toList

/-- The run launched by `__main__` over an enumerated tree. -/
def main_run (root_dir : List String) (t : DirTree) : RunResult :=
  process_directory root_dir mainOld mainNew t

/-- List-prefix relation, written without notation. -/
def Pfx {α : Type} (a b : List α) : Prop :=
  ∃ t, a ++ t = b

/-- Substring relation (contiguous), written without special symbols. -/
def SubStr {α : Type} (n h : List α) : Prop :=
  ∃ u v, u ++ n ++ v = h

/-- A file on which `replace_in_file` raises an uncaught exception. -/
def fileFatal (f : FSFile) : Prop :=
  isCandidate f.name = true ∧ f.content = FileContent.ioError

/-- The tail of the hardcoded search string. -/
def mainOldTail : List Char := "erialPlotDN_WPF".toList

theorem pfx_nil_left {α : Type} (l : List α) : Pfx [] l :=
  ⟨l, rfl⟩

theorem pfx_refl {α : Type} (l : List α) : Pfx l l :=
  ⟨[], List.append_nil l⟩

theorem pfx_nil_right {α : Type} {l : List α} (h : Pfx l []) : l = [] := by
  obtain ⟨t, ht⟩ := h
  exact List.append_eq_nil.mp ht |>.1

theorem pfx_cons {α : Type} {a b : α} {as bs : List α} :
    Pfx (a :: as) (b :: bs) ↔ a = b ∧ Pfx as bs := by
  constructor
  · rintro ⟨t, ht⟩
    injection ht with h1 h2
    exact ⟨h1, t, h2⟩
  · rintro ⟨rfl, t, ht⟩
    exact ⟨t, by rw [List.cons_append, ht]⟩

theorem pfx_append_left {α : Type} (a b : List α) : Pfx a (a ++ b) :=
  ⟨b, rfl⟩

theorem pfx_length {α : Type} {a b : List α} (h : Pfx a b) : a.length ≤ b.length := by
  obtain ⟨t, ht⟩ := h
  subst ht
  simp

theorem pfx_comparable {α : Type} {a b l : List α} (ha : Pfx a l) (hb : Pfx b l) :
    Pfx a b ∨ Pfx b a := by
  induction a generalizing b l with
  | nil => exact Or.inl (pfx_nil_left b)
  | cons x xs ih =>
    cases b with
    | nil => exact Or.inr (pfx_nil_left (x :: xs))
    | cons y ys =>
      cases l with
      | nil => exact absurd (pfx_nil_right ha) (by simp)
      | cons z zs =>
        obtain ⟨hx, ha'⟩ := pfx_cons.mp ha
        obtain ⟨hy, hb'⟩ := pfx_cons.mp hb
        rcases ih ha' hb' with h | h
        · exact Or.inl (pfx_cons.mpr ⟨hx.trans hy.symm, h⟩)
        · exact Or.inr (pfx_cons.mpr ⟨hy.trans hx.symm, h⟩)

theorem startsWithList_iff (a b : List Char) : startsWithList a b = true ↔ Pfx a b := by
  induction a generalizing b with
  | nil => simp [startsWithList, pfx_nil_left]
  | cons x xs ih =>
    cases b with
    | nil =>
      constructor
      · intro h
        simp [startsWithList] at h
      · intro h
        exact absurd (pfx_nil_right h) (by simp)
    | cons y ys =>
      simp [startsWithList, pfx_cons, ih, Bool.and_eq_true, beq_iff_eq]

theorem startsWithList_false_iff (a b : List Char) :
    startsWithList a b = false ↔ ¬ Pfx a b := by
  rw [← startsWithList_iff]
  cases h : startsWithList a b <;> simp

theorem occursIn_iff (n h : List Char) : occursIn n h = true ↔ SubStr n h := by
  induction h with
  | nil =>
    simp only [occursIn, List.isEmpty_iff]
    constructor
    · rintro rfl
      exact ⟨[], [], rfl⟩
    · rintro ⟨u, v, huv⟩
      rcases List.append_eq_nil.mp huv with ⟨h1, h2⟩
      exact List.append_eq_nil.mp h1 |>.2
  | cons c rest ih =>
    simp only [occursIn, Bool.or_eq_true, startsWithList_iff, ih]
    constructor
    · rintro (⟨t, ht⟩ | ⟨u, v, huv⟩)
      · exact ⟨[], t, by simpa using ht⟩
      · exact ⟨c :: u, v, by simp [huv]⟩
    · rintro ⟨u, v, huv⟩
      cases u with
      | nil => exact Or.inl ⟨v, by simpa using huv⟩
      | cons x xs =>
        injection huv with h1 h2
        exact Or.inr ⟨xs, v, h2⟩

theorem occursIn_false_iff (n h : List Char) : occursIn n h = false ↔ ¬ SubStr n h := by
  rw [← occursIn_iff]
  cases hb : occursIn n h <;> simp

theorem endsWithList_iff (post s : List Char) :
    endsWithList post s = true ↔ ∃ p, p ++ post = s := by
  rw [endsWithList, startsWithList_iff]
  constructor
  · rintro ⟨t, ht⟩
    refine ⟨t.reverse, ?_⟩
    have := congrArg List.reverse ht
    simpa using this
  · rintro ⟨p, hp⟩
    exact ⟨p.reverse, by rw [← hp]; simp⟩

theorem substr_iff_pfx_drop (n h : List Char) :
    SubStr n h ↔ ∃ i, Pfx n (h.drop i) := by
  constructor
  · rintro ⟨u, v, huv⟩
    refine ⟨u.length, v, ?_⟩
    rw [← huv, List.append_assoc, List.drop_left]
  · rintro ⟨i, t, ht⟩
    exact ⟨h.take i, t, by rw [List.append_assoc, ht, List.take_append_drop]⟩

theorem replaceFuel_congr (o : Char) (os new : List Char) :
    ∀ (f1 f2 : Nat) (s : List Char), s.length ≤ f1 → s.length ≤ f2 →
      replaceFuel o os new f1 s = replaceFuel o os new f2 s := by
  intro f1
  induction f1 with
  | zero =>
    intro f2 s hs1 _
    have : s = [] := List.length_eq_zero.mp (Nat.le_zero.mp hs1)
    subst this
    cases f2 <;> rfl
  | succ f1 ih =>
    intro f2 s hs1 hs2
    cases s with
    | nil => cases f2 <;> rfl
    | cons c rest =>
      cases f2 with
      | zero => exact absurd hs2 (by simp)
      | succ f2 =>
        simp only [replaceFuel]
        by_cases h : startsWithList (o :: os) (c :: rest) = true
        · rw [if_pos h, if_pos h]
          have hd : (rest.drop os.length).length ≤ rest.length := by
            simp [List.length_drop]
          have h1 : (rest.drop os.length).length ≤ f1 :=
            le_trans hd (Nat.le_of_succ_le_succ (by simpa using hs1))
          have h2 : (rest.drop os.length).length ≤ f2 :=
            le_trans hd (Nat.le_of_succ_le_succ (by simpa using hs2))
          rw [ih f2 _ h1 h2]
        · rw [if_neg h, if_neg h]
          have h1 : rest.length ≤ f1 := Nat.le_of_succ_le_succ (by simpa using hs1)
          have h2 : rest.length ≤ f2 := Nat.le_of_succ_le_succ (by simpa using hs2)
          rw [ih f2 _ h1 h2]

theorem replaceCore_nil (o : Char) (os new : List Char) :
    replaceCore o os new [] = [] := rfl

theorem replaceCore_pos {o : Char} {os : List Char} (new : List Char) {c : Char}
    {rest : List Char} (h : startsWithList (o :: os) (c :: rest) = true) :
    replaceCore o os new (c :: rest) = new ++ replaceCore o os new (rest.drop os.length) := by
  unfold replaceCore
  have hstep : replaceFuel o os new (rest.length + 1) (c :: rest)
      = new ++ replaceFuel o os new rest.length (rest.drop os.length) := by
    simp [replaceFuel, h]
  simp only [List.length_cons]
  rw [hstep]
  have hd : (rest.drop os.length).length ≤ rest.length := by
    simp [List.length_drop]
  rw [replaceFuel_congr o os new rest.length (rest.drop os.length).length _ hd (le_refl _)]

theorem replaceCore_neg {o : Char} {os : List Char} (new : List Char) {c : Char}
    {rest : List Char} (h : startsWithList (o :: os) (c :: rest) = false) :
    replaceCore o os new (c :: rest) = c :: replaceCore o os new rest := by
  unfold replaceCore
  simp only [List.length_cons]
  simp [replaceFuel, h]

theorem runDir_ok_of_no_fatal (old new : List Char) :
    ∀ fs : List FSFile, (∀ f ∈ fs, ¬ fileFatal f) →
      runDir old new fs
        = RunResult.ok (fs.map (fileStep old new)) (fs.flatMap (fileLog old new)) := by
  intro fs
  induction fs with
  | nil => intro _; rfl
  | cons f rest ih =>
    intro h
    have hrest := ih (fun g hg => h g (List.mem_cons_of_mem f hg))
    have hf := h f (List.mem_cons_self f rest)
    obtain ⟨p, nm, co⟩ := f
    cases hc : isCandidate nm with
    | false => simp [runDir, replace_in_file, hc, hrest, fileStep, fileLog]
    | true =>
      cases co with
      | ioError => exact absurd ⟨hc, rfl⟩ hf
      | invalidUtf8 bs => simp [runDir, replace_in_file, hc, hrest, fileStep, fileLog]
      | text s =>
        cases ho : occursIn old s with
        | true => simp [runDir, replace_in_file, hc, ho, hrest, fileStep, fileLog]
        | false => simp [runDir, replace_in_file, hc, ho, hrest, fileStep, fileLog]

theorem runDir_ok_no_fatal (old new : List Char) :
    ∀ (fs fs2 : List FSFile) (out : List String),
      runDir old new fs = RunResult.ok fs2 out → ∀ f ∈ fs, ¬ fileFatal f := by
  intro fs
  induction fs with
  | nil =>
    intro fs2 out _ f hf
    simp at hf
  | cons f rest ih =>
    intro fs2 out h g hg
    obtain ⟨p, nm, co⟩ := f
    rcases List.mem_cons.mp hg with rfl | hg2
    · rintro ⟨hc, hio⟩
      simp only at hc hio
      subst hio
      simp [runDir, replace_in_file, hc] at h
    · cases hc : isCandidate nm with
      | false =>
        cases hr : runDir old new rest with
        | ok fs3 out3 => exact ih fs3 out3 hr g hg2
        | fatal fs3 out3 => simp [runDir, hc, hr] at h
      | true =>
        cases co with
        | ioError => simp [runDir, replace_in_file, hc] at h
        | invalidUtf8 bs =>
          cases hr : runDir old new rest with
          | ok fs3 out3 => exact ih fs3 out3 hr g hg2
          | fatal fs3 out3 => simp [runDir, replace_in_file, hc, hr] at h
        | text s =>
          cases hr : runDir old new rest with
          | ok fs3 out3 => exact ih fs3 out3 hr g hg2
          | fatal fs3 out3 =>
            cases ho : occursIn old s with
            | true => simp [runDir, replace_in_file, hc, ho, hr] at h
            | false => simp [runDir, replace_in_file, hc, ho, hr] at h

theorem runDir_ok_shape {old new : List Char} {fs fs2 : List FSFile} {out : List String}
    (h : runDir old new fs = RunResult.ok fs2 out) :
    fs2 = fs.map (fileStep old new) ∧ out = fs.flatMap (fileLog old new) := by
  have h2 := runDir_ok_no_fatal old new fs fs2 out h
  have h3 := runDir_ok_of_no_fatal old new fs h2
  rw [h] at h3
  injection h3 with h4 h5
  exact ⟨h4, h5⟩

theorem runDir_append_ok {old new : List Char} {pre rest pre2 fs2 : List FSFile}
    {op o2 : List String}
    (h1 : runDir old new pre = RunResult.ok pre2 op)
    (h2 : runDir old new rest = RunResult.ok fs2 o2) :
    runDir old new (pre ++ rest) = RunResult.ok (pre2 ++ fs2) (op ++ o2) := by
  have hn1 := runDir_ok_no_fatal old new pre pre2 op h1
  have hn2 := runDir_ok_no_fatal old new rest fs2 o2 h2
  obtain ⟨e1, e2⟩ := runDir_ok_shape h1
  obtain ⟨e3, e4⟩ := runDir_ok_shape h2
  subst e1 e2 e3 e4
  have hall : ∀ f ∈ pre ++ rest, ¬ fileFatal f := by
    intro f hf
    rcases List.mem_append.mp hf with h | h
    exacts [hn1 f h, hn2 f h]
  rw [runDir_ok_of_no_fatal old new _ hall]
  simp

theorem runDir_fatal_build (old new : List Char) :
    ∀ (pre pre2 : List FSFile) (op : List String) (f : FSFile) (post : List FSFile),
      runDir old new pre = RunResult.ok pre2 op → fileFatal f →
      runDir old new (pre ++ f :: post) = RunResult.fatal (pre2 ++ f :: post) op := by
  intro pre
  induction pre with
  | nil =>
    intro pre2 op f post h1 hf
    obtain ⟨hc, hio⟩ := hf
    simp only [runDir, RunResult.ok.injEq] at h1
    obtain ⟨rfl, rfl⟩ := h1
    obtain ⟨p, nm, co⟩ := f
    simp only at hc hio
    subst hio
    simp [runDir, replace_in_file, hc]
  | cons g pre' ih =>
    intro pre2 op f post h1 hf
    obtain ⟨p, nm, co⟩ := g
    cases hc : isCandidate nm with
    | false =>
      cases hr : runDir old new pre' with
      | fatal fs3 out3 => simp [runDir, hc, hr] at h1
      | ok fs3 out3 =>
        simp only [runDir, hc, hr] at h1
        simp only [Bool.false_eq_true, if_false, RunResult.ok.injEq] at h1
        obtain ⟨rfl, rfl⟩ := h1
        have hstep := ih fs3 out3 f post hr hf
        simp [runDir, hc, hstep]
    | true =>
      cases co with
      | ioError => simp [runDir, replace_in_file, hc] at h1
      | invalidUtf8 bs =>
        cases hr : runDir old new pre' with
        | fatal fs3 out3 => simp [runDir, replace_in_file, hc, hr] at h1
        | ok fs3 out3 =>
          simp only [runDir, replace_in_file, hc, hr, if_true, RunResult.ok.injEq] at h1
          obtain ⟨rfl, rfl⟩ := h1
          have hstep := ih fs3 out3 f post hr hf
          simp [runDir, replace_in_file, hc, hstep]
      | text s =>
        cases ho : occursIn old s with
        | true =>
          cases hr : runDir old new pre' with
          | fatal fs3 out3 => simp [runDir, replace_in_file, hc, ho, hr] at h1
          | ok fs3 out3 =>
            simp only [runDir, replace_in_file, hc, ho, hr, if_true, RunResult.ok.injEq] at h1
            obtain ⟨rfl, rfl⟩ := h1
            have hstep := ih fs3 out3 f post hr hf
            simp [runDir, replace_in_file, hc, ho, hstep]
        | false =>
          cases hr : runDir old new pre' with
          | fatal fs3 out3 => simp [runDir, replace_in_file, hc, ho, hr] at h1
          | ok fs3 out3 =>
            simp only [runDir, replace_in_file, hc, ho, hr, if_true, RunResult.ok.injEq] at h1
            obtain ⟨rfl, rfl⟩ := h1
            have hstep := ih fs3 out3 f post hr hf
            simp [runDir, replace_in_file, hc, ho, hstep]

/-- If no prefix of the search string (cut at any offset, the whole
string included) lines up with the replacement string in either
direction, then a suffix of the search string that starts a scanner
output already started the untouched input: inserted text never fakes
part of a match. -/
theorem replace_pfx_transfer (o : Char) (os new : List Char)
    (hA : ∀ k, k < (o :: os).length →
      startsWithList ((o :: os).drop k) new = false ∧
      startsWithList new ((o :: os).drop k) = false) :
    ∀ (s : List Char) (k : Nat), k < (o :: os).length →
      Pfx ((o :: os).drop k) (replaceCore o os new s) →
      Pfx ((o :: os).drop k) s := by
  intro s
  induction s with
  | nil =>
    intro k hk hp
    rw [replaceCore_nil] at hp
    have hlen := congrArg List.length (pfx_nil_right hp)
    rw [List.length_drop, List.length_nil] at hlen
    omega
  | cons c rest ih =>
    intro k hk hp
    cases hm : startsWithList (o :: os) (c :: rest) with
    | true =>
      rw [replaceCore_pos new hm] at hp
      rcases pfx_comparable hp (pfx_append_left new _) with h | h
      · have hfalse := (hA k hk).1
        rw [startsWithList_false_iff] at hfalse
        exact absurd h hfalse
      · have hfalse := (hA k hk).2
        rw [startsWithList_false_iff] at hfalse
        exact absurd h hfalse
    | false =>
      rw [replaceCore_neg new hm] at hp
      cases hdk : (o :: os).drop k with
      | nil =>
        have hlen := congrArg List.length hdk
        rw [List.length_drop, List.length_nil] at hlen
        omega
      | cons d ds =>
        rw [hdk] at hp
        obtain ⟨hdc, hds⟩ := pfx_cons.mp hp
        have hds2 : (o :: os).drop (k + 1) = ds := by
          calc (o :: os).drop (k + 1) = ((o :: os).drop k).drop 1 := by
                rw [List.drop_drop]
            _ = (d :: ds).drop 1 := by rw [hdk]
            _ = ds := rfl
        by_cases hk1 : k + 1 < (o :: os).length
        · have hrec := ih (k + 1) hk1 (by rw [hds2]; exact hds)
          rw [hds2] at hrec
          exact pfx_cons.mpr ⟨hdc, hrec⟩
        · have hlen := congrArg List.length hds2
          rw [List.length_drop] at hlen
          have : ds = [] := by
            apply List.length_eq_zero.mp
            omega
          subst this
          exact pfx_cons.mpr ⟨hdc, pfx_nil_left rest⟩

/-- Specialisation of `replace_pfx_transfer` to the tail of the search
string, the shape needed when a preserved character opens a fake match. -/
theorem replace_pfx_transfer_one (o : Char) (os new : List Char)
    (hA : ∀ k, k < (o :: os).length →
      startsWithList ((o :: os).drop k) new = false ∧
      startsWithList new ((o :: os).drop k) = false)
    (hne : os ≠ []) (s : List Char)
    (h : Pfx os (replaceCore o os new s)) : Pfx os s := by
  have h1 : 1 < (o :: os).length := by
    cases os with
    | nil => exact absurd rfl hne
    | cons d ds => simp
  have h2 : (o :: os).drop 1 = os := rfl
  have h3 := replace_pfx_transfer o os new hA s 1 h1 (by rw [h2]; exact h)
  rwa [h2] at h3

/-- Under the same overlap-freeness conditions, plus the facts that no
suffix of the replacement starts the search string and that the
replacement is shorter than the search string, the scanner output never
contains the search string anywhere. -/
theorem replace_no_needle (o : Char) (os new : List Char)
    (hA : ∀ k, k < (o :: os).length →
      startsWithList ((o :: os).drop k) new = false ∧
      startsWithList new ((o :: os).drop k) = false)
    (hB : ∀ i, i < new.length → startsWithList (new.drop i) (o :: os) = false)
    (hlen : new.length < (o :: os).length) :
    ∀ (n : Nat) (s : List Char), s.length ≤ n →
      ∀ i, ¬ Pfx (o :: os) ((replaceCore o os new s).drop i) := by
  intro n
  induction n with
  | zero =>
    intro s hs i hp
    have : s = [] := List.length_eq_zero.mp (Nat.le_zero.mp hs)
    subst this
    rw [replaceCore_nil] at hp
    simp only [List.drop_nil] at hp
    exact absurd (pfx_nil_right hp) (by simp)
  | succ n ih =>
    intro s hs i hp
    cases s with
    | nil =>
      rw [replaceCore_nil] at hp
      simp only [List.drop_nil] at hp
      exact absurd (pfx_nil_right hp) (by simp)
    | cons c rest =>
      have hrest : rest.length ≤ n := by
        simp only [List.length_cons] at hs
        omega
      cases hm : startsWithList (o :: os) (c :: rest) with
      | true =>
        rw [replaceCore_pos new hm] at hp
        rw [List.drop_append_eq_append_drop] at hp
        rcases Nat.lt_or_ge i new.length with hi | hi
        · have h0 : i - new.length = 0 := by omega
          rw [h0, List.drop_zero] at hp
          rcases pfx_comparable hp (pfx_append_left (new.drop i) _) with h | h
          · have := pfx_length h
            rw [List.length_drop] at this
            omega
          · have hfalse := hB i hi
            rw [startsWithList_false_iff] at hfalse
            exact absurd h hfalse
        · rw [List.drop_eq_nil_of_le hi, List.nil_append] at hp
          have hlen2 : (rest.drop os.length).length ≤ n := by
            rw [List.length_drop]
            omega
          exact ih (rest.drop os.length) hlen2 (i - new.length) hp
      | false =>
        rw [replaceCore_neg new hm] at hp
        cases i with
        | zero =>
          rw [List.drop_zero] at hp
          obtain ⟨hoc, hos⟩ := pfx_cons.mp hp
          have ht : Pfx os rest := by
            cases os with
            | nil => exact pfx_nil_left rest
            | cons d ds => exact replace_pfx_transfer_one o (d :: ds) new hA (by simp) rest hos
          have hsw : startsWithList (o :: os) (c :: rest) = true :=
            (startsWithList_iff _ _).mpr (pfx_cons.mpr ⟨hoc, ht⟩)
          rw [hm] at hsw
          exact Bool.noConfusion hsw
        | succ j =>
          rw [List.drop_succ_cons] at hp
          exact ih rest hrest j hp

theorem mainOld_eq : mainOld = 'S' :: mainOldTail := rfl

theorem main_side_A : ∀ k, k < ('S' :: mainOldTail).length →
    startsWithList (('S' :: mainOldTail).drop k) mainNew = false ∧
    startsWithList mainNew (('S' :: mainOldTail).drop k) = false := by decide

theorem main_side_B : ∀ i, i < mainNew.length →
    startsWithList (mainNew.drop i) ('S' :: mainOldTail) = false := by decide

theorem main_side_len : mainNew.length < ('S' :: mainOldTail).length := by decide

/-- After one replacement pass with the hardcoded strings, the search
string no longer occurs anywhere in the result. -/
theorem main_no_reoccur (s : List Char) :
    occursIn mainOld (pyReplace s mainOld mainNew) = false := by
  rw [occursIn_false_iff]
  intro hsub
  rw [mainOld_eq] at hsub
  have hcore : pyReplace s ('S' :: mainOldTail) mainNew
      = replaceCore 'S' mainOldTail mainNew s := rfl
  rw [hcore] at hsub
  obtain ⟨i, hpfx⟩ := (substr_iff_pfx_drop _ _).mp hsub
  exact replace_no_needle 'S' mainOldTail mainNew main_side_A main_side_B main_side_len
    s.length s (le_refl _) i hpfx

theorem fileStep_not_fatal (old new : List Char) (f : FSFile) (h : ¬ fileFatal f) :
    ¬ fileFatal (fileStep old new f) := by
  obtain ⟨p, nm, co⟩ := f
  cases hc : isCandidate nm with
  | false => simpa [fileStep, hc] using h
  | true =>
    cases co with
    | text s =>
      cases ho : occursIn old s with
      | true =>
        rintro ⟨_, h2⟩
        simp [fileStep, hc, ho] at h2
      | false => simpa [fileStep, hc, ho] using h
    | invalidUtf8 bs => simpa [fileStep, hc] using h
    | ioError => simpa [fileStep, hc] using h

/-- One pass of the per-file effect with the hardcoded strings is
idempotent: a second pass finds nothing left to replace. -/
theorem fileStep_main_idem (f : FSFile) :
    fileStep mainOld mainNew (fileStep mainOld mainNew f) = fileStep mainOld mainNew f := by
  obtain ⟨p, nm, co⟩ := f
  cases hc : isCandidate nm with
  | false => simp [fileStep, hc]
  | true =>
    cases co with
    | ioError => simp [fileStep, hc]
    | invalidUtf8 bs => simp [fileStep, hc]
    | text s =>
      cases ho : occursIn mainOld s with
      | false => simp [fileStep, hc, ho]
      | true => simp [fileStep, hc, ho, main_no_reoccur]

/-- Replacing a string by itself reproduces the input verbatim. -/
theorem pyReplace_self (old : List Char) : ∀ s, pyReplace s old old = s := by
  cases old with
  | nil =>
    intro s
    simp [pyReplace]
  | cons o os =>
    have hcore : ∀ (n : Nat) (s : List Char), s.length ≤ n →
        replaceCore o os (o :: os) s = s := by
      intro n
      induction n with
      | zero =>
        intro s hs
        have : s = [] := List.length_eq_zero.mp (Nat.le_zero.mp hs)
        subst this
        exact replaceCore_nil o os (o :: os)
      | succ n ih =>
        intro s hs
        cases s with
        | nil => exact replaceCore_nil o os (o :: os)
        | cons c rest =>
          have hrest : rest.length ≤ n := by
            simp only [List.length_cons] at hs
            omega
          cases hm : startsWithList (o :: os) (c :: rest) with
          | false => rw [replaceCore_neg _ hm, ih rest hrest]
          | true =>
            rw [replaceCore_pos _ hm]
            obtain ⟨t, ht⟩ := (startsWithList_iff _ _).mp hm
            have ht2 : rest.drop os.length = t := by
              have hd := congrArg (List.drop (o :: os).length) ht
              rw [List.drop_left] at hd
              rw [List.length_cons, List.drop_succ_cons] at hd
              exact hd.symm
            have htlen : t.length ≤ n := by
              have hl := congrArg List.length ht
              simp only [List.length_append, List.length_cons] at hl
              omega
            rw [ht2, ih t htlen]
            exact ht
    intro s
    exact hcore s.length s (le_refl _)

/-- Replacing the empty string inserts the replacement before every
character and once at the end. -/
theorem pyReplace_empty (new : List Char) :
    ∀ s, pyReplace s [] new = s.foldr (fun c acc => new ++ c :: acc) new := by
  intro s
  induction s with
  | nil => simp [pyReplace]
  | cons c rest ih =>
    simp only [pyReplace] at ih ⊢
    rw [List.flatMap_cons, List.foldr_cons, ← ih]
    simp

/-- C1: for every candidate file whose UTF-8 contents contain the search
string, the run rewrites the file with every non-overlapping occurrence
of the search string replaced by the replacement string, using
left-to-right non-overlapping substitution in which scanning resumes
immediately after each matched region and replacement text is never
re-scanned; in particular, replacing "aa" with "b" in "aaa" yields
"ba". -/
theorem c1_replaces_all_occurrences (old new : List Char) (f : FSFile) (s : List Char)
    (hc : isCandidate f.name = true) (hs : f.content = FileContent.text s)
    (hocc : occursIn old s = true) :
    replace_in_file (fullPath f) old new f.content
      = Except.ok (FileContent.text (pyReplace s old new), ["Replaced in: " ++ fullPath f])
    ∧ (∀ (fs fs2 : List FSFile) (out : List String), f ∈ fs →
        runDir old new fs = RunResult.ok fs2 out →
        { f with content := FileContent.text (pyReplace s old new) } ∈ fs2)
    ∧ (∀ (q : Char) (qs rep t : List Char), startsWithList (q :: qs) t = true →
        pyReplace t (q :: qs) rep = rep ++ pyReplace (t.drop (q :: qs).length) (q :: qs) rep)
    ∧ (∀ (q : Char) (qs rep : List Char) (c : Char) (t : List Char),
        startsWithList (q :: qs) (c :: t) = false →
        pyReplace (c :: t) (q :: qs) rep = c :: pyReplace t (q :: qs) rep)
    ∧ pyReplace "aaa".toList "aa".toList "b".toList = "ba".toList
    ∧ pyReplace "Title=SerialPlotDN_WPF App".toList mainOld mainNew
        = "Title=PowerScope App".toList := by
  refine ⟨?_, ?_, ?_, ?_, by decide, by decide⟩
  · rw [hs]
    simp [replace_in_file, hocc]
  · intro fs fs2 out hmem hrun
    obtain ⟨e1, _⟩ := runDir_ok_shape hrun
    subst e1
    have hstep : fileStep old new f = { f with content := FileContent.text (pyReplace s old new) } := by
      simp [fileStep, hc, hs, hocc]
    rw [← hstep]
    exact List.mem_map_of_mem _ hmem
  · intro q qs rep t hsw
    cases t with
    | nil =>
      rw [startsWithList_iff] at hsw
      exact absurd (pfx_nil_right hsw) (by simp)
    | cons c rest =>
      have h1 : pyReplace (c :: rest) (q :: qs) rep = replaceCore q qs rep (c :: rest) := rfl
      have h2 : pyReplace ((c :: rest).drop (q :: qs).length) (q :: qs) rep
          = replaceCore q qs rep ((c :: rest).drop (q :: qs).length) := rfl
      rw [h1, h2, replaceCore_pos rep hsw, List.length_cons, List.drop_succ_cons]
  · intro q qs rep c t hsw
    have h1 : pyReplace (c :: t) (q :: qs) rep = replaceCore q qs rep (c :: t) := rfl
    have h2 : pyReplace t (q :: qs) rep = replaceCore q qs rep t := rfl
    rw [h1, h2, replaceCore_neg rep hsw]

theorem c1_witness :
    isCandidate "Main.cs" = true ∧ occursIn "aa".toList "aaa".toList = true ∧
    replace_in_file "Main.cs" "aa".toList "b".toList (FileContent.text "aaa".toList)
      = Except.ok (FileContent.text "ba".toList, ["Replaced in: Main.cs"]) := by
  have h := c1_replaces_all_occurrences "aa".toList "b".toList
    ⟨[], "Main.cs", FileContent.text "aaa".toList⟩ "aaa".toList (by decide) rfl (by decide)
  exact ⟨by decide, by decide, h.1⟩

/-- A file discovered in a subdirectory of a forest is discovered in
the walk of the whole forest. -/
theorem walkForest_mem_of (p : List String) (d : String) (sub : DirTree) (f : FSFile)
    (hf : f ∈ walkTree (p ++ [d]) sub) :
    ∀ fr : Forest, forestHas d sub fr → f ∈ walkForest p fr
  | Forest.nil => fun h => h.elim
  | Forest.cons d2 t2 rest => fun h => by
      rcases h with ⟨rfl, rfl⟩ | h2
      · simp only [walkForest, List.mem_append]
        exact Or.inl hf
      · simp only [walkForest, List.mem_append]
        exact Or.inr (walkForest_mem_of p d sub f hf rest h2)

/-- C2: a file is opened and processed iff its filename ends with
".xaml" or ".cs" (case-sensitive), and a qualifying file at any nesting
depth is discovered by the walk and processed identically (same content
transformation) to one at the root. -/
theorem c2_extension_filter (old new : List Char) :
    (∀ nm : String, isCandidate nm = true ↔
      ((∃ p, p ++ ".xaml".toList = nm.toList) ∨ (∃ p, p ++ ".cs".toList = nm.toList)))
    ∧ (∀ f : FSFile, f.content = FileContent.ioError →
        ((∃ fs out, runDir old new [f] = RunResult.fatal fs out) ↔ isCandidate f.name = true))
    ∧ (∀ (p : List String) (d : String) (sub : DirTree) (files : List (String × FileContent))
        (subdirs : Forest), forestHas d sub subdirs →
        ∀ f : FSFile, f ∈ walkTree (p ++ [d]) sub → f ∈ walkTree p (DirTree.node files subdirs))
    ∧ (∀ (p1 p2 : List String) (nm : String) (co : FileContent),
        (fileStep old new ⟨p1, nm, co⟩).content = (fileStep old new ⟨p2, nm, co⟩).content) := by
  refine ⟨?_, ?_, ?_, ?_⟩
  · intro nm
    simp [isCandidate, Bool.or_eq_true, endsWithList_iff]
  · intro f hio
    obtain ⟨p, nm, co⟩ := f
    simp only at hio
    subst hio
    cases hc : isCandidate nm with
    | true =>
      constructor
      · intro _; rfl
      · intro _
        refine ⟨[⟨p, nm, FileContent.ioError⟩], [], ?_⟩
        simp [runDir, replace_in_file, hc]
    | false =>
      constructor
      · rintro ⟨fs, out, h⟩
        simp [runDir, hc] at h
      · intro h
        exact absurd h (by simp [hc])
  · intro p d sub files subdirs hhas f hf
    simp only [walkTree, List.mem_append]
    exact Or.inr (walkForest_mem_of p d sub f hf subdirs hhas)
  · intro p1 p2 nm co
    cases hc : isCandidate nm with
    | false => simp [fileStep, hc]
    | true =>
      cases co with
      | ioError => simp [fileStep, hc]
      | invalidUtf8 bs => simp [fileStep, hc]
      | text s =>
        cases ho : occursIn old s with
        | true => simp [fileStep, hc, ho]
        | false => simp [fileStep, hc, ho]

theorem c2_witness :
    ((∃ fs out, runDir "aa".toList "b".toList [⟨[], "x.cs", FileContent.ioError⟩]
        = RunResult.fatal fs out) ↔ isCandidate "x.cs" = true)
    ∧ (⟨["sub"], "b.cs", FileContent.text "y".toList⟩ : FSFile) ∈
        walkTree [] (DirTree.node [] (Forest.cons "sub"
          (DirTree.node [("b.cs", FileContent.text "y".toList)] Forest.nil) Forest.nil)) := by
  constructor
  · exact (c2_extension_filter "aa".toList "b".toList).2.1 ⟨[], "x.cs", FileContent.ioError⟩ rfl
  · exact (c2_extension_filter "aa".toList "b".toList).2.2.1 [] "sub"
      (DirTree.node [("b.cs", FileContent.text "y".toList)] Forest.nil) [] _
      (by simp [forestHas]) _ (by decide)

/-- C3: a candidate file whose bytes are not valid UTF-8 produces
exactly one "Skipped (decode error): path" line, keeps its bytes
unchanged, and the run continues with the remaining files; the decode
failure is never propagated. -/
theorem c3_decode_error_skipped (old new : List Char) (f : FSFile) (bs : List Nat)
    (hc : isCandidate f.name = true) (hb : f.content = FileContent.invalidUtf8 bs) :
    replace_in_file (fullPath f) old new f.content
      = Except.ok (FileContent.invalidUtf8 bs, ["Skipped (decode error): " ++ fullPath f])
    ∧ fileStep old new f = f
    ∧ fileLog old new f = ["Skipped (decode error): " ++ fullPath f]
    ∧ (∀ (rest fs2 : List FSFile) (out : List String),
        runDir old new rest = RunResult.ok fs2 out →
        runDir old new (f :: rest)
          = RunResult.ok (f :: fs2) (("Skipped (decode error): " ++ fullPath f) :: out)) := by
  have hupdate : { f with content := FileContent.invalidUtf8 bs } = f := by
    rw [← hb]
  refine ⟨by rw [hb]; rfl, ?_, ?_, ?_⟩
  · simp [fileStep, hc, hb]
  · simp [fileLog, hc, hb]
  · intro rest fs2 out hr
    simp [runDir, hc, hb, replace_in_file, hr, hupdate]

theorem c3_witness :
    isCandidate "B.xaml" = true ∧
    runDir "aa".toList "b".toList [⟨[], "B.xaml", FileContent.invalidUtf8 [255]⟩]
      = RunResult.ok [⟨[], "B.xaml", FileContent.invalidUtf8 [255]⟩]
        ["Skipped (decode error): B.xaml"] := by
  have h := c3_decode_error_skipped "aa".toList "b".toList
    ⟨[], "B.xaml", FileContent.invalidUtf8 [255]⟩ [255] (by decide) rfl
  exact ⟨by decide, h.2.2.2 [] [] [] rfl⟩

/-- C4: a candidate file whose decoded contents do not contain the
search string is left byte-identical (not rewritten) and produces no
diagnostic line. -/
theorem c4_no_occurrence_untouched (old new : List Char) (f : FSFile) (s : List Char)
    (hc : isCandidate f.name = true) (hs : f.content = FileContent.text s)
    (hno : occursIn old s = false) :
    replace_in_file (fullPath f) old new f.content = Except.ok (FileContent.text s, [])
    ∧ fileStep old new f = f
    ∧ fileLog old new f = []
    ∧ (∀ (fs fs2 : List FSFile) (out : List String), f ∈ fs →
        runDir old new fs = RunResult.ok fs2 out → f ∈ fs2) := by
  refine ⟨by rw [hs]; simp [replace_in_file, hno], ?_, ?_, ?_⟩
  · simp [fileStep, hc, hs, hno]
  · simp [fileLog, hc, hs, hno]
  · intro fs fs2 out hmem hrun
    obtain ⟨e1, _⟩ := runDir_ok_shape hrun
    subst e1
    have hstep : fileStep old new f = f := by simp [fileStep, hc, hs, hno]
    rw [← hstep]
    exact List.mem_map_of_mem _ hmem

theorem c4_witness :
    isCandidate "C.cs" = true ∧ occursIn "zz".toList "hello".toList = false ∧
    fileStep "zz".toList "b".toList ⟨[], "C.cs", FileContent.text "hello".toList⟩
      = ⟨[], "C.cs", FileContent.text "hello".toList⟩ := by
  have h := c4_no_occurrence_untouched "zz".toList "b".toList
    ⟨[], "C.cs", FileContent.text "hello".toList⟩ "hello".toList (by decide) rfl (by decide)
  exact ⟨by decide, by decide, h.2.1⟩

/-- C5: a file whose name does not end in ".xaml" or ".cs" is never
opened: whatever its content, the run leaves it unchanged, prints
nothing for it, and cannot even fail on it. -/
theorem c5_non_candidate_never_opened (old new : List Char) (f : FSFile)
    (hnc : isCandidate f.name = false) :
    fileStep old new f = f
    ∧ fileLog old new f = []
    ∧ (∀ (rest fs2 : List FSFile) (out : List String),
        runDir old new rest = RunResult.ok fs2 out →
        runDir old new (f :: rest) = RunResult.ok (f :: fs2) out)
    ∧ (∀ (co : FileContent) (rest fs2 : List FSFile) (out : List String),
        runDir old new rest = RunResult.ok fs2 out →
        runDir old new ({ f with content := co } :: rest)
          = RunResult.ok ({ f with content := co } :: fs2) out) := by
  refine ⟨by simp [fileStep, hnc], by simp [fileLog, hnc], ?_, ?_⟩
  · intro rest fs2 out hr
    simp [runDir, hnc, hr]
  · intro co rest fs2 out hr
    simp [runDir, hnc, hr]

theorem c5_witness :
    isCandidate "readme.md" = false ∧
    runDir "aa".toList "b".toList [⟨[], "readme.md", FileContent.ioError⟩]
      = RunResult.ok [⟨[], "readme.md", FileContent.ioError⟩] [] := by
  have h := c5_non_candidate_never_opened "aa".toList "b".toList
    ⟨[], "readme.md", FileContent.text "x".toList⟩ (by decide)
  exact ⟨by decide, h.2.2.2 FileContent.ioError [] [] [] rfl⟩

/-- C6: re-running the tool over the file set produced by a first run
performs zero modifications: with the hardcoded strings the per-file
transformation is idempotent, the search string no longer occurs in any
rewritten content, and a second run returns the same file set, logging
at most decode-error skips. -/
theorem c6_second_run_idempotent :
    (∀ f : FSFile,
      fileStep mainOld mainNew (fileStep mainOld mainNew f) = fileStep mainOld mainNew f)
    ∧ (∀ s : List Char, occursIn mainOld (pyReplace s mainOld mainNew) = false)
    ∧ (∀ (fs fs2 : List FSFile) (out : List String),
        runDir mainOld mainNew fs = RunResult.ok fs2 out →
        ∃ out2, runDir mainOld mainNew fs2 = RunResult.ok fs2 out2
          ∧ ∀ line ∈ out2, ∃ pth, line = "Skipped (decode error): " ++ pth) := by
  refine ⟨fileStep_main_idem, main_no_reoccur, ?_⟩
  intro fs fs2 out hrun
  obtain ⟨e1, e2⟩ := runDir_ok_shape hrun
  subst e1 e2
  have hnf := runDir_ok_no_fatal _ _ _ _ _ hrun
  have hnf2 : ∀ g ∈ fs.map (fileStep mainOld mainNew), ¬ fileFatal g := by
    intro g hg
    rw [List.mem_map] at hg
    obtain ⟨f, hf, rfl⟩ := hg
    exact fileStep_not_fatal mainOld mainNew f (hnf f hf)
  have hrun2 := runDir_ok_of_no_fatal mainOld mainNew _ hnf2
  have hmap : (fs.map (fileStep mainOld mainNew)).map (fileStep mainOld mainNew)
      = fs.map (fileStep mainOld mainNew) := by
    rw [List.map_map]
    apply List.map_congr_left
    intro f _
    simp only [Function.comp_apply]
    exact fileStep_main_idem f
  rw [hmap] at hrun2
  refine ⟨_, hrun2, ?_⟩
  intro line hline
  rw [List.mem_flatMap] at hline
  obtain ⟨g, hg, hl⟩ := hline
  rw [List.mem_map] at hg
  obtain ⟨f, hf, rfl⟩ := hg
  obtain ⟨p, nm, co⟩ := f
  cases hc : isCandidate nm with
  | false => simp [fileStep, fileLog, hc] at hl
  | true =>
    cases co with
    | ioError => simp [fileStep, fileLog, hc] at hl
    | invalidUtf8 bs =>
      refine ⟨fullPath ⟨p, nm, FileContent.invalidUtf8 bs⟩, ?_⟩
      simp [fileStep, fileLog, hc] at hl
      exact hl
    | text s =>
      cases ho : occursIn mainOld s with
      | false => simp [fileStep, fileLog, hc, ho] at hl
      | true => simp [fileStep, fileLog, hc, ho, main_no_reoccur] at hl

theorem c6_witness :
    runDir mainOld mainNew [⟨[], "A.cs", FileContent.text "xSerialPlotDN_WPFy".toList⟩]
      = RunResult.ok [⟨[], "A.cs", FileContent.text "xPowerScopey".toList⟩] ["Replaced in: A.cs"]
    ∧ ∃ out2, runDir mainOld mainNew [⟨[], "A.cs", FileContent.text "xPowerScopey".toList⟩]
        = RunResult.ok [⟨[], "A.cs", FileContent.text "xPowerScopey".toList⟩] out2
        ∧ ∀ line ∈ out2, ∃ pth, line = "Skipped (decode error): " ++ pth := by
  have h1 : runDir mainOld mainNew [⟨[], "A.cs", FileContent.text "xSerialPlotDN_WPFy".toList⟩]
      = RunResult.ok [⟨[], "A.cs", FileContent.text "xPowerScopey".toList⟩]
        ["Replaced in: A.cs"] := by decide
  exact ⟨h1, c6_second_run_idempotent.2.2 _ _ _ h1⟩

/-- C7: only a text-decode failure is recovered; a candidate file whose
access raises any other I/O error aborts the traversal at once, keeping
the modifications already made to earlier files and touching nothing
else. -/
theorem c7_only_decode_recovered (old new : List Char) (pre post : List FSFile) (f : FSFile)
    (pre2 : List FSFile) (op : List String)
    (hc : isCandidate f.name = true) (hio : f.content = FileContent.ioError)
    (hpre : runDir old new pre = RunResult.ok pre2 op) :
    runDir old new (pre ++ f :: post) = RunResult.fatal (pre2 ++ f :: post) op
    ∧ pre2 = pre.map (fileStep old new)
    ∧ (∀ (fp : String) (co : FileContent),
        (∃ e, replace_in_file fp old new co = Except.error e) ↔ co = FileContent.ioError) := by
  refine ⟨runDir_fatal_build old new pre pre2 op f post hpre ⟨hc, hio⟩,
    (runDir_ok_shape hpre).1, ?_⟩
  intro fp co
  constructor
  · rintro ⟨e, he⟩
    cases co with
    | ioError => rfl
    | invalidUtf8 bs => simp [replace_in_file] at he
    | text s =>
      cases ho : occursIn old s with
      | true => simp [replace_in_file, ho] at he
      | false => simp [replace_in_file, ho] at he
  · rintro rfl
    exact ⟨(), rfl⟩

theorem c7_witness :
    runDir "aa".toList "b".toList
        ([⟨[], "A.cs", FileContent.text "aa".toList⟩]
          ++ ⟨[], "B.cs", FileContent.ioError⟩ :: [⟨[], "C.cs", FileContent.text "a".toList⟩])
      = RunResult.fatal
          ([⟨[], "A.cs", FileContent.text "b".toList⟩]
            ++ ⟨[], "B.cs", FileContent.ioError⟩ :: [⟨[], "C.cs", FileContent.text "a".toList⟩])
          ["Replaced in: A.cs"] :=
  (c7_only_decode_recovered "aa".toList "b".toList
    [⟨[], "A.cs", FileContent.text "aa".toList⟩]
    [⟨[], "C.cs", FileContent.text "a".toList⟩]
    ⟨[], "B.cs", FileContent.ioError⟩
    [⟨[], "A.cs", FileContent.text "b".toList⟩]
    ["Replaced in: A.cs"]
    (by decide) rfl (by decide)).1

/-- C8: the final contents after a completed run do not depend on the
enumeration order: runs over any two enumerations of the same file set
produce the same per-file results, each file being processed once,
independently. -/
theorem c8_order_independent (old new : List Char) (fs1 fs2 fs1r fs2r : List FSFile)
    (out1 out2 : List String) (hperm : fs1.Perm fs2)
    (h1 : runDir old new fs1 = RunResult.ok fs1r out1)
    (h2 : runDir old new fs2 = RunResult.ok fs2r out2) :
    fs1r.Perm fs2r
    ∧ fs1r = fs1.map (fileStep old new)
    ∧ fs2r = fs2.map (fileStep old new) := by
  obtain ⟨e1, _⟩ := runDir_ok_shape h1
  obtain ⟨e2, _⟩ := runDir_ok_shape h2
  subst e1 e2
  exact ⟨hperm.map _, rfl, rfl⟩

theorem c8_witness :
    ([⟨[], "A.cs", FileContent.text "b".toList⟩, ⟨[], "B.cs", FileContent.text "zz".toList⟩]
        : List FSFile).Perm
      [⟨[], "B.cs", FileContent.text "zz".toList⟩, ⟨[], "A.cs", FileContent.text "b".toList⟩] := by
  have h := c8_order_independent "aa".toList "b".toList
    [⟨[], "A.cs", FileContent.text "aa".toList⟩, ⟨[], "B.cs", FileContent.text "zz".toList⟩]
    [⟨[], "B.cs", FileContent.text "zz".toList⟩, ⟨[], "A.cs", FileContent.text "aa".toList⟩]
    [⟨[], "A.cs", FileContent.text "b".toList⟩, ⟨[], "B.cs", FileContent.text "zz".toList⟩]
    [⟨[], "B.cs", FileContent.text "zz".toList⟩, ⟨[], "A.cs", FileContent.text "b".toList⟩]
    ["Replaced in: A.cs"] ["Replaced in: A.cs"]
    (List.Perm.swap (⟨[], "B.cs", FileContent.text "zz".toList⟩ : FSFile)
      (⟨[], "A.cs", FileContent.text "aa".toList⟩ : FSFile) [])
    (by decide) (by decide)
  exact h.1

/-- C9: the rewrite-and-log decision is triggered by occurrence of the
search string, not by an actual change: when the search string equals
the replacement string and occurs, the file is rewritten with identical
content and a "Replaced in: path" line is still emitted. -/
theorem c9_rewrite_even_without_change (old : List Char) (f : FSFile) (s : List Char)
    (hc : isCandidate f.name = true) (hs : f.content = FileContent.text s)
    (hocc : occursIn old s = true) :
    replace_in_file (fullPath f) old old f.content
      = Except.ok (FileContent.text s, ["Replaced in: " ++ fullPath f])
    ∧ fileStep old old f = f
    ∧ fileLog old old f = ["Replaced in: " ++ fullPath f] := by
  refine ⟨?_, ?_, by simp [fileLog, hc, hs, hocc]⟩
  · rw [hs]
    simp [replace_in_file, hocc, pyReplace_self]
  · have h1 : fileStep old old f
        = { f with content := FileContent.text (pyReplace s old old) } := by
      simp [fileStep, hc, hs, hocc]
    rw [h1, pyReplace_self, ← hs]

theorem c9_witness :
    isCandidate "D.cs" = true ∧ occursIn "b".toList "aba".toList = true ∧
    replace_in_file "D.cs" "b".toList "b".toList (FileContent.text "aba".toList)
      = Except.ok (FileContent.text "aba".toList, ["Replaced in: D.cs"]) := by
  have h := c9_rewrite_even_without_change "b".toList
    ⟨[], "D.cs", FileContent.text "aba".toList⟩ "aba".toList (by decide) rfl (by decide)
  exact ⟨by decide, by decide, h.1⟩

/-- C10: with an empty search string the occurrence test succeeds for
every content, and every candidate file is rewritten with the
replacement inserted before every character and once at the end. -/
theorem c10_empty_search_inserts_everywhere (new : List Char) (f : FSFile) (s : List Char)
    (hc : isCandidate f.name = true) (hs : f.content = FileContent.text s) :
    occursIn [] s = true
    ∧ replace_in_file (fullPath f) [] new f.content
        = Except.ok (FileContent.text (s.foldr (fun c acc => new ++ c :: acc) new),
            ["Replaced in: " ++ fullPath f])
    ∧ fileLog [] new f = ["Replaced in: " ++ fullPath f] := by
  have hocc : occursIn ([] : List Char) s = true := by
    cases s with
    | nil => rfl
    | cons c rest => simp [occursIn, startsWithList]
  refine ⟨hocc, ?_, by simp [fileLog, hc, hs, hocc]⟩
  rw [hs]
  simp [replace_in_file, hocc, pyReplace_empty]

theorem c10_witness :
    occursIn [] "ab".toList = true ∧
    replace_in_file "E.cs" [] "X".toList (FileContent.text "ab".toList)
      = Except.ok (FileContent.text "XaXbX".toList, ["Replaced in: E.cs"]) := by
  have h := c10_empty_search_inserts_everywhere "X".toList
    ⟨[], "E.cs", FileContent.text "ab".toList⟩ "ab".toList (by decide) rfl
  exact ⟨h.1, h.2.1⟩

end Rename
